import Mathlib

/-!
The class template `ring_buffer`: a fixed-capacity circular buffer (`ring_buffer.h`).

Shallow embedding of the class template `ring_buffer<T, N>`.

* The storage `T buffer_[BUFSIZE]` is a list of slots; a freshly constructed
  object has `BUFSIZE` slots holding whatever the memory held before.
* `size_t` is an unsigned 64-bit integer: the results of `+` and `-` on indices
  are reduced modulo `SIZE_MOD = 2 ^ 64`.
* The template argument `N` is an `int`.  Only the non-negative values are
  modelled, as a natural number.  For every such value `N + 1U` does not wrap,
  so `BUFSIZE` is `N + 1`, far below `2 ^ 63`.
* `assert(!empty())` in `remove` is modelled as an explicit fault, and so is a
  read outside the storage.
-/

namespace RingBuffer

/-- Number of values of the unsigned 64-bit type `size_t`. -/
def SIZE_MOD : Nat := 2 ^ 64

/-- The constant `static const size_t BUFSIZE = N + 1U;`. -/
def BUFSIZE (N : Nat) : Nat := N + 1

/-- The private member `void advance(size_t& value) { value = (value + 1) % BUFSIZE; }`,
as a function from the old value of the index to the new one. -/
def advance (N : Nat) (value : Nat) : Nat :=
  ((value + 1) % SIZE_MOD) % BUFSIZE N

/-- The data members of `ring_buffer<T, N>`: the storage and the two indices. -/
structure ring_buffer (T : Type) (N : Nat) where
  buffer_ : List T
  head_ : Nat
  tail_ : Nat
deriving DecidableEq

/-- The ways in which a call can go wrong: the assertion in `remove` fails, or a
slot outside the storage is read. -/
inductive Fault where
  | assert_failed
  | out_of_bounds
deriving DecidableEq

namespace ring_buffer

variable {T : Type} {N : Nat}

/-- The member `size_t capacity() const { return N; }`. -/
def capacity (_rb : ring_buffer T N) : Nat := N

/-- The member `bool empty() const { return head_ == tail_; }`. -/
def empty (rb : ring_buffer T N) : Bool := rb.head_ == rb.tail_

/-- The member `void clear() { tail_ = head_ = 0U; }`. -/
def clear (rb : ring_buffer T N) : ring_buffer T N :=
  { rb with tail_ := 0, head_ := 0 }

/-- The member `add`: write the item at `head_`, advance `head_`, and when
`head_` has caught up with `tail_` advance `tail_` too. A write to a slot that
does not exist changes nothing. -/
def add (rb : ring_buffer T N) (item : T) : ring_buffer T N :=
  let rb1 : ring_buffer T N := { rb with buffer_ := rb.buffer_.set rb.head_ item }
  let rb2 : ring_buffer T N := { rb1 with head_ := advance N rb1.head_ }
  if rb2.head_ = rb2.tail_ then
    { rb2 with tail_ := advance N rb2.tail_ }
  else
    rb2

/-- The member `size`: `(head_ - tail_ + BUFSIZE) % BUFSIZE` in `size_t`
arithmetic, where the difference and the sum wrap modulo `2 ^ 64`. -/
def size (rb : ring_buffer T N) : Nat :=
  (((rb.head_ + SIZE_MOD - rb.tail_) % SIZE_MOD + BUFSIZE N) % SIZE_MOD) % BUFSIZE N

/-- The member `remove`: the assertion `!empty()`, then advance `tail_` and
return the slot at the old `tail_`, together with the state afterwards. -/
def remove (rb : ring_buffer T N) : Except Fault (T × ring_buffer T N) :=
  if rb.empty then
    Except.error Fault.assert_failed
  else
    let old_tail := rb.tail_
    let rb1 : ring_buffer T N := { rb with tail_ := advance N rb.tail_ }
    match rb1.buffer_[old_tail]? with
    | some v => Except.ok (v, rb1)
    | none => Except.error Fault.out_of_bounds

/-- The constructor `ring_buffer() { clear(); }`, applied to the memory `raw`
the object is built in: the indices are reset, the storage is left as it is. -/
def ctor (raw : ring_buffer T N) : ring_buffer T N := raw.clear

/-- The logical contents, oldest first: the storage read cyclically from slot
`tail_`, for `size()` slots. -/
def contents (rb : ring_buffer T N) : List T :=
  (rb.buffer_.rotate rb.tail_).take rb.size

/-- Several `add` calls in a row, one for each item of `xs`, in order. -/
def addAll (rb : ring_buffer T N) (xs : List T) : ring_buffer T N :=
  xs.foldl add rb

/-- Up to `k` successive `remove` calls: the values returned, in order, and
the state afterwards; the first fault stops the sequence. -/
def removeN : Nat → ring_buffer T N → Except Fault (List T × ring_buffer T N)
  | 0, rb => Except.ok ([], rb)
  | k + 1, rb =>
    match rb.remove with
    | Except.error f => Except.error f
    | Except.ok (v, rb1) =>
      match removeN k rb1 with
      | Except.error f => Except.error f
      | Except.ok (vs, rb2) => Except.ok (v :: vs, rb2)

/-- The states a program can see: a freshly constructed buffer, whose storage
has `BUFSIZE` slots, and what `add`, a successful `remove` and `clear` make of
such a state. -/
inductive Reachable : ring_buffer T N → Prop where
  | fresh (raw : ring_buffer T N) (hlen : raw.buffer_.length = BUFSIZE N) :
      Reachable (ctor raw)
  | add (rb : ring_buffer T N) (item : T) (h : Reachable rb) : Reachable (rb.add item)
  | remove (rb : ring_buffer T N) (v : T) (rb1 : ring_buffer T N) (h : Reachable rb)
      (hr : rb.remove = Except.ok (v, rb1)) : Reachable rb1
  | clear (rb : ring_buffer T N) (h : Reachable rb) : Reachable rb.clear

/-- Well-formed states: the storage has `BUFSIZE` slots and both indices point
into it. -/
structure Inv (rb : ring_buffer T N) : Prop where
  len : rb.buffer_.length = BUFSIZE N
  head_lt : rb.head_ < BUFSIZE N
  tail_lt : rb.tail_ < BUFSIZE N

end ring_buffer

/-- One call of a public member function. -/
inductive Call (T : Type) where
  | add (item : T)
  | remove
  | clear
  | size
  | empty
  | capacity
deriving DecidableEq

/-- What a call gives back to the caller. -/
inductive Ret (T : Type) where
  | void
  | elem (v : T)
  | count (n : Nat)
  | flag (b : Bool)
  | fault (f : Fault)
deriving DecidableEq

/-- The values a program observes when it makes the calls `cs` in order,
starting in state `rb`. A fault ends the program. -/
def run {T : Type} {N : Nat} : ring_buffer T N → List (Call T) → List (Ret T)
  | _, [] => []
  | rb, Call.add item :: cs => Ret.void :: run (rb.add item) cs
  | rb, Call.remove :: cs =>
    match rb.remove with
    | Except.ok (v, rb1) => Ret.elem v :: run rb1 cs
    | Except.error f => [Ret.fault f]
  | rb, Call.clear :: cs => Ret.void :: run rb.clear cs
  | rb, Call.size :: cs => Ret.count rb.size :: run rb cs
  | rb, Call.empty :: cs => Ret.flag rb.empty :: run rb cs
  | rb, Call.capacity :: cs => Ret.count rb.capacity :: run rb cs

/-- The last `k` elements of a list, in order. -/
def lastN {T : Type} (k : Nat) (l : List T) : List T := l.drop (l.length - k)

/-- The loop `while (!rb.empty()) { ... rb.remove() ... }` of the test
`delete_one_by_one`, with at most `fuel` evaluations of the loop condition: the
values removed, one for each iteration, in order, and the state on exit.
The result `none` means that the loop has not ended within the fuel. -/
def drainLoop {T : Type} {N : Nat} :
    Nat → ring_buffer T N → Option (Except Fault (List T × ring_buffer T N))
  | 0, _ => none
  | fuel + 1, rb =>
    if rb.empty then
      some (Except.ok ([], rb))
    else
      match rb.remove with
      | Except.error f => some (Except.error f)
      | Except.ok (v, rb1) =>
        match drainLoop fuel rb1 with
        | none => none
        | some (Except.error f) => some (Except.error f)
        | some (Except.ok (vs, rb2)) => some (Except.ok (v :: vs, rb2))

/-- The member `size` of the copy of the class in `ring_buffer.cpp`:
`head_ >= tail_ ? head_ - tail_ : BUFSIZE - (tail_ - head_)`, in `size_t`
arithmetic, where each difference wraps modulo `2 ^ 64`. -/
def testing.size {T : Type} {N : Nat} (rb : ring_buffer T N) : Nat :=
  if rb.head_ ≥ rb.tail_ then
    (rb.head_ + SIZE_MOD - rb.tail_) % SIZE_MOD
  else
    (BUFSIZE N + SIZE_MOD - (rb.tail_ + SIZE_MOD - rb.head_) % SIZE_MOD) % SIZE_MOD

/-- The values a program observes with the class of `ring_buffer.cpp`: all
members but `size` are the same text as in `ring_buffer.h`. -/
def testing.run {T : Type} {N : Nat} : ring_buffer T N → List (Call T) → List (Ret T)
  | _, [] => []
  | rb, Call.add item :: cs => Ret.void :: testing.run (rb.add item) cs
  | rb, Call.remove :: cs =>
    match rb.remove with
    | Except.ok (v, rb1) => Ret.elem v :: testing.run rb1 cs
    | Except.error f => [Ret.fault f]
  | rb, Call.clear :: cs => Ret.void :: testing.run rb.clear cs
  | rb, Call.size :: cs => Ret.count (testing.size rb) :: testing.run rb cs
  | rb, Call.empty :: cs => Ret.flag rb.empty :: testing.run rb cs
  | rb, Call.capacity :: cs => Ret.count rb.capacity :: testing.run rb cs

/-! ## Concrete buffers used to exercise the theorems -/

/-- Memory for a buffer of capacity 5 before construction: six slots and two
indices holding arbitrary values. -/
def demo_raw : ring_buffer Nat 5 := ⟨[9, 9, 9, 9, 9, 9], 4, 2⟩

/-- A buffer of capacity 5 after `add(1)`, `add(2)`, `add(3)`. -/
def demo_three : ring_buffer Nat 5 := ((demo_raw.ctor.add 1).add 2).add 3

/-- The buffer `demo_three` after three `remove` calls: empty, with both
indices at slot 3 and the removed values still in the storage. -/
def demo_drained : ring_buffer Nat 5 := ⟨[1, 2, 3, 9, 9, 9], 3, 3⟩

/-- A buffer of capacity 5 holding 4, 5, 6, 7, 8: it is full, and its contents
wrap around the end of the storage. -/
def demo_full : ring_buffer Nat 5 := demo_drained.addAll [4, 5, 6, 7, 8]

/-- Memory for a buffer of capacity 0 before construction: one slot. -/
def demo_raw0 : ring_buffer Nat 0 := ⟨[7], 3, 5⟩

/-! ## Index arithmetic -/

theorem advance_lt (N value : Nat) : advance N value < BUFSIZE N :=
  Nat.mod_lt _ (Nat.succ_pos N)

theorem advance_eq {N value : Nat} (hN : BUFSIZE N < 2 ^ 63) (hv : value < BUFSIZE N) :
    advance N value = if value + 1 = BUFSIZE N then 0 else value + 1 := by
  unfold advance SIZE_MOD
  have h1 : (value + 1) % 2 ^ 64 = value + 1 := Nat.mod_eq_of_lt (by omega)
  rw [h1]
  split
  · next h => rw [h, Nat.mod_self]
  · next h => exact Nat.mod_eq_of_lt (by omega)

/-- Reading a cyclic index without the remainder. -/
theorem wrap_eq {B a i : Nat} (ha : a < B) (hi : i < B) :
    (a + i) % B = if a + i < B then a + i else a + i - B := by
  split
  · next h => exact Nat.mod_eq_of_lt h
  · next h =>
    have h2 : a + i = (a + i - B) + B := by omega
    rw [h2, Nat.add_mod_right, Nat.add_sub_cancel]
    exact Nat.mod_eq_of_lt (by omega)

/-- The slot `i` places after `t` is the slot `h` exactly when `i` is the
cyclic distance from `t` to `h`. -/
theorem wrap_eq_iff {B h t i : Nat} (hh : h < B) (ht : t < B) (hi : i < B) :
    (t + i) % B = h ↔ i = if t ≤ h then h - t else h + B - t := by
  rw [wrap_eq ht hi]
  split_ifs <;> omega

/-- Walking `i` slots from the advanced index is walking `i + 1` slots from
the index itself. -/
theorem wrap_advance {N t i : Nat} (hN : BUFSIZE N < 2 ^ 63) (ht : t < BUFSIZE N)
    (hi : i + 1 < BUFSIZE N) :
    (advance N t + i) % BUFSIZE N = (t + (i + 1)) % BUFSIZE N := by
  rw [wrap_eq (advance_lt N t) (by omega), wrap_eq ht hi, advance_eq hN ht]
  split_ifs <;> omega

namespace ring_buffer

variable {T : Type} {N : Nat}

/-! ## The state after each member function -/

theorem size_lt (rb : ring_buffer T N) : rb.size < BUFSIZE N :=
  Nat.mod_lt _ (Nat.succ_pos N)

theorem size_eq {rb : ring_buffer T N} (hN : BUFSIZE N < 2 ^ 63)
    (hh : rb.head_ < BUFSIZE N) (ht : rb.tail_ < BUFSIZE N) :
    rb.size = if rb.tail_ ≤ rb.head_ then rb.head_ - rb.tail_
      else rb.head_ + BUFSIZE N - rb.tail_ := by
  unfold size SIZE_MOD
  split
  · next h =>
    have h1 : (rb.head_ + 2 ^ 64 - rb.tail_) % 2 ^ 64 = rb.head_ - rb.tail_ := by omega
    have h2 : (rb.head_ - rb.tail_ + BUFSIZE N) % 2 ^ 64
        = rb.head_ - rb.tail_ + BUFSIZE N := by omega
    rw [h1, h2, Nat.add_mod_right]
    exact Nat.mod_eq_of_lt (by omega)
  · next h =>
    have h1 : (rb.head_ + 2 ^ 64 - rb.tail_) % 2 ^ 64
        = rb.head_ + 2 ^ 64 - rb.tail_ := by omega
    have h2 : (rb.head_ + 2 ^ 64 - rb.tail_ + BUFSIZE N) % 2 ^ 64
        = rb.head_ + BUFSIZE N - rb.tail_ := by omega
    rw [h1, h2]
    exact Nat.mod_eq_of_lt (by omega)

theorem empty_iff (rb : ring_buffer T N) : rb.empty = true ↔ rb.head_ = rb.tail_ := by
  simp [empty]

theorem add_buffer (rb : ring_buffer T N) (item : T) :
    (rb.add item).buffer_ = rb.buffer_.set rb.head_ item := by
  unfold add; dsimp only; split <;> rfl

theorem add_head (rb : ring_buffer T N) (item : T) :
    (rb.add item).head_ = advance N rb.head_ := by
  unfold add; dsimp only; split <;> rfl

theorem add_tail (rb : ring_buffer T N) (item : T) :
    (rb.add item).tail_ =
      if advance N rb.head_ = rb.tail_ then advance N rb.tail_ else rb.tail_ := by
  unfold add; dsimp only; split <;> rfl

theorem inv_ctor (raw : ring_buffer T N) (hlen : raw.buffer_.length = BUFSIZE N) :
    Inv (ctor raw) :=
  ⟨hlen, Nat.succ_pos N, Nat.succ_pos N⟩

theorem inv_clear {rb : ring_buffer T N} (h : Inv rb) : Inv rb.clear :=
  ⟨h.len, Nat.succ_pos N, Nat.succ_pos N⟩

theorem inv_add {rb : ring_buffer T N} (h : Inv rb) (item : T) : Inv (rb.add item) := by
  refine ⟨?_, ?_, ?_⟩
  · rw [add_buffer, List.length_set]; exact h.len
  · rw [add_head]; exact advance_lt _ _
  · rw [add_tail]; split
    · exact advance_lt _ _
    · exact h.tail_lt

/-- A `remove` on a well-formed non-empty buffer returns the slot at `tail_`
and advances `tail_`. -/
theorem remove_ok {rb : ring_buffer T N} (h : Inv rb) (hne : rb.empty = false) :
    ∃ v, rb.buffer_[rb.tail_]? = some v ∧
      rb.remove = Except.ok (v, { rb with tail_ := advance N rb.tail_ }) := by
  have hlt : rb.tail_ < rb.buffer_.length := by rw [h.len]; exact h.tail_lt
  refine ⟨rb.buffer_[rb.tail_], List.getElem?_eq_getElem hlt, ?_⟩
  unfold remove
  simp only [hne, Bool.false_eq_true, if_false, List.getElem?_eq_getElem hlt]

theorem remove_state {rb rb1 : ring_buffer T N} {v : T}
    (hr : rb.remove = Except.ok (v, rb1)) :
    rb.empty = false ∧ rb.buffer_[rb.tail_]? = some v ∧
      rb1 = { rb with tail_ := advance N rb.tail_ } := by
  unfold remove at hr
  cases he : rb.empty with
  | true => simp [he] at hr
  | false =>
    simp only [he, Bool.false_eq_true, if_false] at hr
    cases hb : rb.buffer_[rb.tail_]? with
    | none => simp [hb] at hr
    | some w =>
      simp only [hb, Except.ok.injEq, Prod.mk.injEq] at hr
      exact ⟨rfl, by rw [hr.1], hr.2.symm⟩

theorem inv_remove {rb rb1 : ring_buffer T N} {v : T} (h : Inv rb)
    (hr : rb.remove = Except.ok (v, rb1)) : Inv rb1 := by
  obtain ⟨_, _, rfl⟩ := remove_state hr
  exact ⟨h.len, h.head_lt, advance_lt _ _⟩

theorem inv_of_reachable {rb : ring_buffer T N} (h : Reachable rb) : Inv rb := by
  induction h with
  | fresh raw hlen => exact inv_ctor raw hlen
  | add rb item _ ih => exact inv_add ih item
  | remove rb v rb1 _ hr ih => exact inv_remove ih hr
  | clear rb _ ih => exact inv_clear ih

/-! ## The logical contents -/

theorem length_contents (rb : ring_buffer T N) (h : Inv rb) :
    rb.contents.length = rb.size := by
  unfold contents
  rw [List.length_take, List.length_rotate, h.len]
  exact Nat.min_eq_left (Nat.le_of_lt (size_lt rb))

theorem getElem?_contents (rb : ring_buffer T N) (h : Inv rb) (i : Nat) :
    rb.contents[i]? =
      if i < rb.size then rb.buffer_[(rb.tail_ + i) % BUFSIZE N]? else none := by
  unfold contents
  rw [List.getElem?_take]
  split
  · next hi =>
    have hlt : i < rb.buffer_.length := by
      rw [h.len]; exact Nat.lt_trans hi (size_lt rb)
    rw [List.getElem?_rotate hlt, h.len, Nat.add_comm]
  · rfl

/-- How `size()` changes under `add`: it grows by one until it reaches `N`. -/
theorem size_add (rb : ring_buffer T N) (hN : BUFSIZE N < 2 ^ 63) (h : Inv rb) (item : T) :
    (rb.add item).size = if rb.size < N then rb.size + 1 else rb.size := by
  have h1 := inv_add h item
  rw [size_eq hN h1.head_lt h1.tail_lt, size_eq hN h.head_lt h.tail_lt,
    add_head, add_tail, advance_eq hN h.head_lt, advance_eq hN h.tail_lt]
  have hh := h.head_lt
  have ht := h.tail_lt
  simp only [BUFSIZE] at *
  split_ifs <;> omega

/-- How the logical contents change under `add`. -/
theorem contents_add (rb : ring_buffer T N) (hN : BUFSIZE N < 2 ^ 63) (h1N : 1 ≤ N)
    (h : Inv rb) (item : T) :
    (rb.add item).contents =
      if rb.size < N then rb.contents ++ [item] else rb.contents.tail ++ [item] := by
  have hA := inv_add h item
  have hh := h.head_lt
  have ht := h.tail_lt
  have hsz := size_eq hN hh ht
  have hszlt := size_lt rb
  have hhl : rb.head_ < rb.buffer_.length := by rw [h.len]; exact hh
  have hB : BUFSIZE N = N + 1 := rfl
  apply List.ext_getElem?
  intro i
  rw [getElem?_contents _ hA, size_add rb hN h, add_buffer, List.getElem?_set, if_pos hhl]
  by_cases hfull : rb.size < N
  · rw [if_pos hfull, if_pos hfull, List.getElem?_append, length_contents rb h,
      getElem?_contents rb h]
    have htl : (rb.add item).tail_ = rb.tail_ := by
      rw [add_tail, if_neg]
      rw [advance_eq hN hh]
      split_ifs at hsz ⊢ <;> omega
    rw [htl]
    by_cases hi : i < rb.size
    · have hne : ¬ rb.head_ = (rb.tail_ + i) % BUFSIZE N := by
        intro heq
        have h2 := (wrap_eq_iff hh ht (by omega : i < BUFSIZE N)).1 heq.symm
        rw [← hsz] at h2
        omega
      rw [if_pos (show i < rb.size + 1 by omega), if_neg hne, if_pos hi, if_pos hi]
    · rw [if_neg hi]
      by_cases hi2 : i = rb.size
      · have h2 := (wrap_eq_iff hh ht (by omega : i < BUFSIZE N)).2 (by rw [← hsz]; exact hi2)
        rw [if_pos (show i < rb.size + 1 by omega), if_pos h2.symm, hi2, Nat.sub_self]
        rfl
      · rw [if_neg (show ¬ i < rb.size + 1 by omega)]
        have h3 : i - rb.size = (i - rb.size - 1) + 1 := by omega
        rw [h3]
        rfl
  · have hsN : rb.size = N := by omega
    rw [if_neg hfull, if_neg hfull, List.getElem?_append, List.length_tail,
      length_contents rb h, List.getElem?_tail, getElem?_contents rb h]
    have htl : (rb.add item).tail_ = advance N rb.tail_ := by
      rw [add_tail, if_pos]
      rw [advance_eq hN hh]
      split_ifs at hsz ⊢ <;> omega
    rw [htl]
    by_cases hi : i < rb.size
    · rw [if_pos hi, wrap_advance hN ht (by omega)]
      by_cases hi2 : i < rb.size - 1
      · have hne : ¬ rb.head_ = (rb.tail_ + (i + 1)) % BUFSIZE N := by
          intro heq
          have h2 := (wrap_eq_iff hh ht (by omega : i + 1 < BUFSIZE N)).1 heq.symm
          rw [← hsz] at h2
          omega
        rw [if_pos hi2, if_pos (show i + 1 < rb.size by omega), if_neg hne]
      · have h2 := (wrap_eq_iff hh ht (by omega : i + 1 < BUFSIZE N)).2
          (by rw [← hsz]; omega)
        have h3 : i - (rb.size - 1) = 0 := by omega
        rw [if_neg hi2, if_pos h2.symm, h3]
        rfl
    · rw [if_neg hi, if_neg (show ¬ i < rb.size - 1 by omega)]
      have h3 : i - (rb.size - 1) = (i - (rb.size - 1) - 1) + 1 := by omega
      rw [h3]
      rfl

theorem size_eq_zero_iff {rb : ring_buffer T N} (hN : BUFSIZE N < 2 ^ 63)
    (hh : rb.head_ < BUFSIZE N) (ht : rb.tail_ < BUFSIZE N) :
    rb.size = 0 ↔ rb.head_ = rb.tail_ := by
  rw [size_eq hN hh ht]
  split_ifs <;> omega

/-- A successful `remove` returns the first element of the contents and leaves
the rest. -/
theorem contents_remove {rb rb1 : ring_buffer T N} {v : T} (hN : BUFSIZE N < 2 ^ 63)
    (h : Inv rb) (hr : rb.remove = Except.ok (v, rb1)) :
    rb.contents = v :: rb1.contents ∧ rb1.size + 1 = rb.size := by
  have h1 := inv_remove h hr
  obtain ⟨hne, hv, rfl⟩ := remove_state hr
  have hh := h.head_lt
  have ht := h.tail_lt
  have hneq : rb.head_ ≠ rb.tail_ := by
    intro he
    rw [(empty_iff rb).2 he] at hne
    exact Bool.noConfusion hne
  have hs : ({ rb with tail_ := advance N rb.tail_ } : ring_buffer T N).size + 1 = rb.size := by
    rw [size_eq hN h1.head_lt h1.tail_lt, size_eq hN hh ht]
    dsimp only
    rw [advance_eq hN ht]
    split_ifs <;> omega
  refine ⟨?_, hs⟩
  apply List.ext_getElem?
  intro i
  rw [getElem?_contents rb h]
  cases i with
  | zero =>
    rw [if_pos (show 0 < rb.size by omega), Nat.add_zero, Nat.mod_eq_of_lt ht, hv,
      List.getElem?_cons_zero]
  | succ j =>
    rw [List.getElem?_cons_succ, getElem?_contents _ h1]
    dsimp only
    by_cases hj : j + 1 < rb.size
    · have hlt := size_lt rb
      rw [if_pos hj, if_pos (show j < _ by omega), wrap_advance hN ht (by omega)]
    · rw [if_neg hj, if_neg (show ¬ j < _ by omega)]

/-- Draining: `size()` successive `remove` calls succeed, return the logical
contents oldest first and leave an empty buffer. -/
theorem removeN_size (hN : BUFSIZE N < 2 ^ 63) (k : Nat) :
    ∀ rb : ring_buffer T N, Inv rb → rb.size = k →
      ∃ rb1, removeN k rb = Except.ok (rb.contents, rb1) ∧ Inv rb1 ∧
        rb1.empty = true ∧ rb1.size = 0 := by
  induction k with
  | zero =>
    intro rb h hk
    have hc : rb.contents = [] := List.eq_nil_of_length_eq_zero (by rw [length_contents rb h, hk])
    refine ⟨rb, ?_, h, ?_, hk⟩
    · rw [hc]; rfl
    · exact (empty_iff rb).2 ((size_eq_zero_iff hN h.head_lt h.tail_lt).1 hk)
  | succ k ih =>
    intro rb h hk
    have hne : rb.empty = false := by
      cases he : rb.empty with
      | false => rfl
      | true =>
        have h0 := (size_eq_zero_iff hN h.head_lt h.tail_lt).2 ((empty_iff rb).1 he)
        omega
    obtain ⟨v, _, hr⟩ := remove_ok h hne
    obtain ⟨hc, hs⟩ := contents_remove hN h hr
    obtain ⟨rb2, h2, hinv, hemp, hz⟩ := ih _ (inv_remove h hr) (by omega)
    refine ⟨rb2, ?_, hinv, hemp, hz⟩
    simp only [removeN, hr, h2, hc]

end ring_buffer


/-! ## The concrete buffers are reachable -/

open ring_buffer

theorem demo_three_reachable : Reachable demo_three :=
  Reachable.add _ 3 (Reachable.add _ 2 (Reachable.add _ 1 (Reachable.fresh demo_raw rfl)))

theorem demo_drained_reachable : Reachable demo_drained :=
  Reachable.remove ⟨[1, 2, 3, 9, 9, 9], 3, 2⟩ 3 demo_drained
    (Reachable.remove ⟨[1, 2, 3, 9, 9, 9], 3, 1⟩ 2 ⟨[1, 2, 3, 9, 9, 9], 3, 2⟩
      (Reachable.remove demo_three 1 ⟨[1, 2, 3, 9, 9, 9], 3, 1⟩ demo_three_reachable rfl)
      rfl)
    rfl

theorem addAll_reachable {T : Type} {N : Nat} (xs : List T) :
    ∀ rb : ring_buffer T N, Reachable rb → Reachable (rb.addAll xs) := by
  induction xs with
  | nil => intro rb h; exact h
  | cons x xs ih => intro rb h; exact ih _ (Reachable.add rb x h)

theorem demo_full_reachable : Reachable demo_full :=
  addAll_reachable _ _ demo_drained_reachable

/-! ## Adding and removing one element -/

/-- C1: for every capacity `N ≥ 1`, every state reachable from a fresh buffer
and every item `x`, with `c` the logical contents (oldest first, `size()` of
them, at most `N`): when fewer than `N` elements are held, `add(x)` makes the
contents `c ++ [x]`; when exactly `N` are held it makes them `c` without its
first element, followed by `x`, so exactly the oldest element is evicted and
the order of the others is kept. -/
theorem add_appends_or_evicts_oldest {T : Type} {N : Nat} (hN : BUFSIZE N < 2 ^ 63)
    (h1 : 1 ≤ N) (rb : ring_buffer T N) (hr : Reachable rb) (x : T) :
    rb.contents.length = rb.size ∧ rb.size ≤ N ∧
      (rb.add x).contents =
        if rb.size < N then rb.contents ++ [x] else rb.contents.tail ++ [x] :=
  ⟨length_contents rb (inv_of_reachable hr), Nat.le_of_lt_succ (size_lt rb),
    contents_add rb hN h1 (inv_of_reachable hr) x⟩

/-- C1 at the full buffer holding 4, 5, 6, 7, 8 (capacity 5): `add(9)` evicts 4. -/
theorem add_appends_or_evicts_oldest_witness :
    (BUFSIZE 5 < 2 ^ 63 ∧ 1 ≤ 5 ∧ Reachable demo_full) ∧
      demo_full.contents = [4, 5, 6, 7, 8] ∧ demo_full.size = 5 ∧
      (demo_full.add 9).contents = [5, 6, 7, 8, 9] :=
  ⟨⟨by decide, by decide, demo_full_reachable⟩, rfl, rfl,
    (add_appends_or_evicts_oldest (by decide) (by decide) demo_full
      demo_full_reachable 9).2.2.trans rfl⟩

/-- C2: in every reachable non-empty state with logical contents `c`,
`remove()` succeeds and returns the first element of `c`, which is the slot at
`tail_`; the contents afterwards are `c` without its first element, in the same
order, and `size()` afterwards is `size()` before minus one. -/
theorem remove_returns_oldest {T : Type} {N : Nat} (hN : BUFSIZE N < 2 ^ 63)
    (rb : ring_buffer T N) (hr : Reachable rb) (hne : rb.empty = false) :
    ∃ v rb1, rb.remove = Except.ok (v, rb1) ∧ rb.buffer_[rb.tail_]? = some v ∧
      rb.contents.head? = some v ∧ rb1.contents = rb.contents.tail ∧
      1 ≤ rb.size ∧ rb1.size = rb.size - 1 := by
  have h := inv_of_reachable hr
  obtain ⟨v, hv, hrem⟩ := remove_ok h hne
  obtain ⟨hc, hs⟩ := contents_remove hN h hrem
  refine ⟨v, _, hrem, hv, ?_, ?_, ?_, ?_⟩
  · rw [hc]; rfl
  · rw [hc]; rfl
  · omega
  · omega

/-- C2 at the full buffer holding 4, 5, 6, 7, 8: `remove()` returns 4. -/
theorem remove_returns_oldest_witness :
    (BUFSIZE 5 < 2 ^ 63 ∧ Reachable demo_full ∧ demo_full.empty = false) ∧
      ∃ v rb1, demo_full.remove = Except.ok (v, rb1) ∧
        demo_full.buffer_[demo_full.tail_]? = some v ∧
        demo_full.contents.head? = some v ∧ rb1.contents = demo_full.contents.tail ∧
        1 ≤ demo_full.size ∧ rb1.size = demo_full.size - 1 :=
  ⟨⟨by decide, demo_full_reachable, rfl⟩,
    remove_returns_oldest (by decide) demo_full demo_full_reachable rfl⟩

/-- A run of calls without `remove` never ends in a fault. -/
theorem run_no_fault {T : Type} {N : Nat} (cs : List (Call T)) :
    ∀ rb : ring_buffer T N, Call.remove ∉ cs → ∀ f, Ret.fault f ∉ run rb cs := by
  induction cs with
  | nil => intro rb _ f hf; simp [run] at hf
  | cons c cs ih =>
    intro rb hc f hf
    have hc1 : c ≠ Call.remove := fun he => hc (by rw [he]; exact List.mem_cons_self _ _)
    have hc2 : Call.remove ∉ cs := fun hm => hc (List.mem_cons_of_mem _ hm)
    cases c with
    | remove => exact hc1 rfl
    | add item =>
      simp only [run, List.mem_cons, reduceCtorEq, false_or] at hf
      exact ih _ hc2 f hf
    | clear =>
      simp only [run, List.mem_cons, reduceCtorEq, false_or] at hf
      exact ih _ hc2 f hf
    | size =>
      simp only [run, List.mem_cons, reduceCtorEq, false_or] at hf
      exact ih _ hc2 f hf
    | empty =>
      simp only [run, List.mem_cons, reduceCtorEq, false_or] at hf
      exact ih _ hc2 f hf
    | capacity =>
      simp only [run, List.mem_cons, reduceCtorEq, false_or] at hf
      exact ih _ hc2 f hf

/-- C3: in every reachable state, `remove()` fails its assertion `!empty()`
exactly when the buffer is empty (`head_ == tail_`), and returns an element
exactly when the buffer is not empty; so on an empty buffer it returns nothing
and on a non-empty one it succeeds. No other call can fail: the slot `add`
writes to exists, and a program that never calls `remove` never faults. -/
theorem remove_fails_iff_empty {T : Type} {N : Nat} (rb : ring_buffer T N)
    (hr : Reachable rb) :
    (rb.remove = Except.error Fault.assert_failed ↔ rb.empty = true) ∧
      (rb.empty = true ↔ rb.head_ = rb.tail_) ∧
      ((∃ v rb1, rb.remove = Except.ok (v, rb1)) ↔ rb.empty = false) ∧
      rb.head_ < rb.buffer_.length ∧
      ∀ cs : List (Call T), Call.remove ∉ cs → ∀ f, Ret.fault f ∉ run rb cs := by
  have h := inv_of_reachable hr
  refine ⟨?_, empty_iff rb, ?_, ?_, fun cs => run_no_fault cs rb⟩
  · constructor
    · intro he
      cases hb : rb.empty with
      | true => rfl
      | false =>
        obtain ⟨v, _, hok⟩ := remove_ok h hb
        rw [hok] at he
        exact Except.noConfusion he
    · intro he
      simp [remove, he]
  · constructor
    · rintro ⟨v, rb1, hok⟩
      exact (remove_state hok).1
    · intro hb
      obtain ⟨v, _, hok⟩ := remove_ok h hb
      exact ⟨v, _, hok⟩
  · rw [h.len]; exact h.head_lt

/-- C3 at the drained buffer of capacity 5 (both indices at slot 3). -/
theorem remove_fails_iff_empty_witness :
    Reachable demo_drained ∧ demo_drained.empty = true ∧
      demo_drained.remove = Except.error Fault.assert_failed :=
  ⟨demo_drained_reachable, rfl,
    (remove_fails_iff_empty demo_drained demo_drained_reachable).1.2 rfl⟩

/-- C4: for every capacity `N ≥ 0`, in every state reached from a fresh buffer
by `add`, `clear` and successful `remove` calls, `size()` is the number of
stored elements, a natural number not larger than `capacity()`, which is `N`. -/
theorem size_le_capacity {T : Type} {N : Nat} (rb : ring_buffer T N)
    (hr : Reachable rb) :
    rb.size ≤ rb.capacity ∧ rb.capacity = N ∧ rb.contents.length = rb.size :=
  ⟨Nat.le_of_lt_succ (size_lt rb), rfl, length_contents rb (inv_of_reachable hr)⟩

/-- C4 at the full buffer of capacity 5, before and after one more `add`. -/
theorem size_le_capacity_witness :
    Reachable (demo_full.add 9) ∧ demo_full.size = 5 ∧ (demo_full.add 9).size = 5 ∧
      (demo_full.add 9).size ≤ (demo_full.add 9).capacity :=
  ⟨Reachable.add _ 9 demo_full_reachable, rfl, rfl,
    (size_le_capacity (demo_full.add 9) (Reachable.add _ 9 demo_full_reachable)).1⟩

/-! ## Sequences of `add` calls -/

theorem inv_addAll {T : Type} {N : Nat} (xs : List T) :
    ∀ rb : ring_buffer T N, Inv rb → Inv (rb.addAll xs) := by
  induction xs with
  | nil => intro rb h; exact h
  | cons x xs ih => intro rb h; exact ih _ (inv_add h x)

/-- After a sequence of `add` calls the buffer holds the most recent items:
the last `min N (|c| + |xs|)` elements of the old contents followed by the
added items. -/
theorem contents_addAll {T : Type} {N : Nat} (hN : BUFSIZE N < 2 ^ 63) (h1 : 1 ≤ N)
    (xs : List T) :
    ∀ rb : ring_buffer T N, Inv rb →
      (rb.addAll xs).contents =
        lastN (min N (rb.contents.length + xs.length)) (rb.contents ++ xs) := by
  induction xs with
  | nil =>
    intro rb h
    have hl := length_contents rb h
    have hlt := size_lt rb
    have hB : BUFSIZE N = N + 1 := rfl
    have hm : min N (rb.contents.length + 0) = rb.contents.length := by
      rw [Nat.add_zero]; exact Nat.min_eq_right (by omega)
    show rb.contents = _
    unfold lastN
    rw [List.length_nil, hm, List.append_nil, Nat.sub_self, List.drop_zero]
  | cons x xs ih =>
    intro rb h
    have hl := length_contents rb h
    have hlt := size_lt rb
    have hB : BUFSIZE N = N + 1 := rfl
    show ((rb.add x).addAll xs).contents = _
    rw [ih _ (inv_add h x), contents_add rb hN h1 h x]
    unfold lastN
    by_cases hf : rb.size < N
    · rw [if_pos hf, List.append_assoc, List.singleton_append]
      simp only [List.length_append, List.length_cons, List.length_nil]
      congr 2
      omega
    · rw [if_neg hf]
      cases hc : rb.contents with
      | nil =>
        rw [hc] at hl
        simp only [List.length_nil] at hl
        omega
      | cons a t =>
        rw [hc] at hl
        simp only [List.length_cons] at hl
        rw [List.tail_cons, List.append_assoc, List.singleton_append, List.cons_append]
        simp only [List.length_append, List.length_cons, List.length_nil]
        have e1 : t.length + (xs.length + 1)
            - min N (t.length + 1 + xs.length) = xs.length := by omega
        have e2 : t.length + (xs.length + 1) + 1
            - min N (t.length + 1 + (xs.length + 1)) = xs.length + 1 := by omega
        rw [e1, e2, List.drop_succ_cons]

/-! ## Filling and draining -/

/-- C5: for every capacity `N ≥ 1` and every list `xs` of `k ≤ N` items: after
adding the items of `xs` in order to a fresh buffer, `size()` is `k` and the
contents are `xs` (nothing is evicted, also for `k = N`); `k` successive
`remove()` calls all succeed and return exactly `xs` in the order added,
leaving the buffer empty. -/
theorem fill_then_drain_fifo {T : Type} {N : Nat} (hN : BUFSIZE N < 2 ^ 63)
    (h1 : 1 ≤ N) (raw : ring_buffer T N) (hlen : raw.buffer_.length = BUFSIZE N)
    (xs : List T) (hk : xs.length ≤ N) :
    (raw.ctor.addAll xs).size = xs.length ∧ (raw.ctor.addAll xs).contents = xs ∧
      ∃ rb1, removeN xs.length (raw.ctor.addAll xs) = Except.ok (xs, rb1) ∧
        rb1.empty = true ∧ rb1.size = 0 := by
  have h0 := inv_ctor raw hlen
  have hA := inv_addAll xs _ h0
  have hs0 : raw.ctor.size = 0 :=
    (size_eq_zero_iff hN h0.head_lt h0.tail_lt).2 rfl
  have hc0 : raw.ctor.contents = [] :=
    List.eq_nil_of_length_eq_zero (by rw [length_contents _ h0, hs0])
  have hc : (raw.ctor.addAll xs).contents = xs := by
    rw [contents_addAll hN h1 xs _ h0, hc0]
    unfold lastN
    simp only [List.length_nil, Nat.zero_add, List.nil_append]
    rw [Nat.min_eq_right hk, Nat.sub_self, List.drop_zero]
  have hs : (raw.ctor.addAll xs).size = xs.length := by
    rw [← length_contents _ hA, hc]
  obtain ⟨rb1, hd, _, he, hz⟩ := removeN_size hN xs.length _ hA hs
  rw [hc] at hd
  exact ⟨hs, hc, rb1, hd, he, hz⟩

/-- C5 on the sequence of the test `overflow1`: capacity 5, items 1 to 5. -/
theorem fill_then_drain_fifo_witness :
    (BUFSIZE 5 < 2 ^ 63 ∧ 1 ≤ 5 ∧ demo_raw.buffer_.length = BUFSIZE 5 ∧
        [1, 2, 3, 4, 5].length ≤ 5) ∧
      (demo_raw.ctor.addAll [1, 2, 3, 4, 5]).size = 5 ∧
      ∃ rb1, removeN 5 (demo_raw.ctor.addAll [1, 2, 3, 4, 5])
          = Except.ok ([1, 2, 3, 4, 5], rb1) ∧ rb1.empty = true ∧ rb1.size = 0 :=
  ⟨⟨by decide, by decide, rfl, by decide⟩,
    (fill_then_drain_fifo (by decide) (by decide) demo_raw rfl [1, 2, 3, 4, 5]
      (by decide)).1,
    (fill_then_drain_fifo (by decide) (by decide) demo_raw rfl [1, 2, 3, 4, 5]
      (by decide)).2.2⟩

/-- C6: for every capacity `N ≥ 1` and every list `xs` of `N + 1` items: after
adding them in order to a fresh buffer, `size()` is `N` and the contents are
`xs` without its first item; the first `remove()` returns the second item of
`xs`, and `N` successive `remove()` calls return the second to the last item in
that order, leaving the buffer empty. -/
theorem overflow_evicts_first {T : Type} {N : Nat} (hN : BUFSIZE N < 2 ^ 63)
    (h1 : 1 ≤ N) (raw : ring_buffer T N) (hlen : raw.buffer_.length = BUFSIZE N)
    (xs : List T) (hk : xs.length = N + 1) :
    (raw.ctor.addAll xs).size = N ∧ (raw.ctor.addAll xs).contents = xs.tail ∧
      (∃ x2 rb1, xs[1]? = some x2 ∧
        (raw.ctor.addAll xs).remove = Except.ok (x2, rb1)) ∧
      ∃ rb2, removeN N (raw.ctor.addAll xs) = Except.ok (xs.tail, rb2) ∧
        rb2.empty = true := by
  have h0 := inv_ctor raw hlen
  have hA := inv_addAll xs _ h0
  have hs0 : raw.ctor.size = 0 :=
    (size_eq_zero_iff hN h0.head_lt h0.tail_lt).2 rfl
  have hc0 : raw.ctor.contents = [] :=
    List.eq_nil_of_length_eq_zero (by rw [length_contents _ h0, hs0])
  have hc : (raw.ctor.addAll xs).contents = xs.tail := by
    rw [contents_addAll hN h1 xs _ h0, hc0]
    unfold lastN
    simp only [List.length_nil, Nat.zero_add, List.nil_append]
    rw [hk, Nat.min_eq_left (Nat.le_succ N), Nat.add_sub_cancel_left, List.drop_one]
  have hs : (raw.ctor.addAll xs).size = N := by
    rw [← length_contents _ hA, hc, List.length_tail, hk, Nat.add_sub_cancel]
  have hne : (raw.ctor.addAll xs).empty = false := by
    cases he : (raw.ctor.addAll xs).empty with
    | false => rfl
    | true =>
      have hz := (size_eq_zero_iff hN hA.head_lt hA.tail_lt).2 ((empty_iff _).1 he)
      omega
  obtain ⟨v, _, hrem⟩ := remove_ok hA hne
  obtain ⟨hcv, _⟩ := contents_remove hN hA hrem
  have hx2 : xs[1]? = some v := by
    rw [← List.getElem?_tail, ← hc, hcv, List.getElem?_cons_zero]
  obtain ⟨rb2, hd, _, he, _⟩ := removeN_size hN N _ hA hs
  rw [hc] at hd
  exact ⟨hs, hc, ⟨v, _, hx2, hrem⟩, rb2, hd, he⟩

/-- C6 at capacity 5 with the items 1 to 6: the item 1 is evicted. -/
theorem overflow_evicts_first_witness :
    (BUFSIZE 5 < 2 ^ 63 ∧ 1 ≤ 5 ∧ demo_raw.buffer_.length = BUFSIZE 5 ∧
        [1, 2, 3, 4, 5, 6].length = 5 + 1) ∧
      (demo_raw.ctor.addAll [1, 2, 3, 4, 5, 6]).size = 5 ∧
      (demo_raw.ctor.addAll [1, 2, 3, 4, 5, 6]).contents = [2, 3, 4, 5, 6] ∧
      (demo_raw.ctor.addAll [1, 2, 3, 4, 5, 6]).remove
        = Except.ok (2, ⟨[1, 2, 3, 4, 5, 6], 0, 2⟩) :=
  ⟨⟨by decide, by decide, rfl, rfl⟩,
    (overflow_evicts_first (by decide) (by decide) demo_raw rfl [1, 2, 3, 4, 5, 6] rfl).1,
    (overflow_evicts_first (by decide) (by decide) demo_raw rfl [1, 2, 3, 4, 5, 6] rfl).2.1,
    rfl⟩

/-- C7: for every capacity `N ≥ 1`, every reachable state with logical contents
`c` and every list `xs` of items: after adding all of `xs` in order, the
contents are the last `min N (|c| + |xs|)` elements of `c ++ xs`, in order, and
`size()` is that number; the buffer holds the most recently added elements, at
most `N` of them. -/
theorem add_keeps_most_recent {T : Type} {N : Nat} (hN : BUFSIZE N < 2 ^ 63)
    (h1 : 1 ≤ N) (rb : ring_buffer T N) (hr : Reachable rb) (xs : List T) :
    (rb.addAll xs).contents =
        lastN (min N (rb.contents.length + xs.length)) (rb.contents ++ xs) ∧
      (rb.addAll xs).size = min N (rb.contents.length + xs.length) := by
  have h := inv_of_reachable hr
  have hc := contents_addAll hN h1 xs rb h
  refine ⟨hc, ?_⟩
  rw [← length_contents _ (inv_addAll xs rb h), hc]
  unfold lastN
  rw [List.length_drop, List.length_append]
  omega

/-- C7 on the sequence of the test `overflow2`: capacity 5, `add` 1, 2, 3,
three `remove` calls, then `add` 4 to 10. The size is 5 from `add(8)` on and
draining yields 6, 7, 8, 9, 10. -/
theorem add_keeps_most_recent_witness :
    (BUFSIZE 5 < 2 ^ 63 ∧ 1 ≤ 5 ∧ Reachable demo_drained) ∧
      (demo_drained.addAll [4, 5, 6, 7, 8, 9, 10]).contents = [6, 7, 8, 9, 10] ∧
      (demo_drained.addAll [4, 5, 6, 7]).size = 4 ∧
      (demo_drained.addAll [4, 5, 6, 7, 8]).size = 5 ∧
      (demo_drained.addAll [4, 5, 6, 7, 8, 9]).size = 5 ∧
      (demo_drained.addAll [4, 5, 6, 7, 8, 9, 10]).size = 5 ∧
      removeN 5 (demo_drained.addAll [4, 5, 6, 7, 8, 9, 10])
        = Except.ok ([6, 7, 8, 9, 10], ⟨[7, 8, 9, 10, 5, 6], 4, 4⟩) :=
  ⟨⟨by decide, by decide, demo_drained_reachable⟩,
    (add_keeps_most_recent (by decide) (by decide) demo_drained demo_drained_reachable
      [4, 5, 6, 7, 8, 9, 10]).1.trans rfl,
    rfl, rfl, rfl, rfl, rfl⟩

/-! ## Empty buffers are indistinguishable -/

theorem empty_iff_size {T : Type} {N : Nat} (hN : BUFSIZE N < 2 ^ 63)
    (rb : ring_buffer T N) (hh : rb.head_ < BUFSIZE N) (ht : rb.tail_ < BUFSIZE N) :
    rb.empty = true ↔ rb.size = 0 :=
  (empty_iff rb).trans (size_eq_zero_iff hN hh ht).symm

theorem contents_of_empty {T : Type} {N : Nat} (hN : BUFSIZE N < 2 ^ 63)
    (rb : ring_buffer T N) (h : Inv rb) (he : rb.empty = true) : rb.contents = [] :=
  List.eq_nil_of_length_eq_zero
    (by rw [length_contents rb h]; exact (empty_iff_size hN rb h.head_lt h.tail_lt).1 he)

/-- Two well-formed states with the same logical contents answer every
sequence of calls in the same way. -/
theorem run_congr {T : Type} {N : Nat} (hN : BUFSIZE N < 2 ^ 63) (h1N : 1 ≤ N)
    (cs : List (Call T)) :
    ∀ s1 s2 : ring_buffer T N, Inv s1 → Inv s2 → s1.contents = s2.contents →
      run s1 cs = run s2 cs := by
  induction cs with
  | nil => intro s1 s2 _ _ _; rfl
  | cons c cs ih =>
    intro s1 s2 h1 h2 hc
    have hsz : s1.size = s2.size := by
      rw [← length_contents s1 h1, ← length_contents s2 h2, hc]
    have hemp : s1.empty = s2.empty := by
      rw [Bool.eq_iff_iff, empty_iff_size hN s1 h1.head_lt h1.tail_lt,
        empty_iff_size hN s2 h2.head_lt h2.tail_lt, hsz]
    cases c with
    | add item =>
      have hca : (s1.add item).contents = (s2.add item).contents := by
        rw [contents_add s1 hN h1N h1, contents_add s2 hN h1N h2, hsz, hc]
      simp only [run]
      rw [ih _ _ (inv_add h1 item) (inv_add h2 item) hca]
    | remove =>
      cases he : s1.empty with
      | true =>
        have r1 : s1.remove = Except.error Fault.assert_failed := by simp [remove, he]
        have r2 : s2.remove = Except.error Fault.assert_failed := by
          simp [remove, ← hemp, he]
        simp only [run, r1, r2]
      | false =>
        obtain ⟨v1, _, hr1⟩ := remove_ok h1 he
        obtain ⟨v2, _, hr2⟩ := remove_ok h2 (by rw [← hemp]; exact he)
        obtain ⟨hc1, _⟩ := contents_remove hN h1 hr1
        obtain ⟨hc2, _⟩ := contents_remove hN h2 hr2
        rw [hc, hc2] at hc1
        have hv : v2 = v1 := (List.cons.inj hc1).1
        have hct := (List.cons.inj hc1).2
        simp only [run, hr1, hr2]
        rw [hv, ih _ _ (inv_remove h1 hr1) (inv_remove h2 hr2) hct.symm]
    | clear =>
      have hcc : s1.clear.contents = s2.clear.contents := by
        rw [contents_of_empty hN _ (inv_clear h1) rfl,
          contents_of_empty hN _ (inv_clear h2) rfl]
      simp only [run]
      rw [ih _ _ (inv_clear h1) (inv_clear h2) hcc]
    | size =>
      simp only [run]
      rw [hsz, ih _ _ h1 h2 hc]
    | empty =>
      simp only [run]
      rw [hemp, ih _ _ h1 h2 hc]
    | capacity =>
      simp only [run]
      rw [ih _ _ h1 h2 hc]
      rfl

/-- C8: for every capacity `N ≥ 1`: a reachable buffer that is empty (for
example drained by repeated `remove()`, with `head_ == tail_` at any index and
stale values in the storage), and a reachable buffer after `clear()`, cannot be
told apart from a freshly constructed buffer: every sequence of `add`,
`remove`, `clear`, `size`, `empty` and `capacity` calls returns the same values
(sizes, emptiness, removed elements, and the failure of `remove`) in both. -/
theorem emptied_behaves_as_fresh {T : Type} {N : Nat} (hN : BUFSIZE N < 2 ^ 63)
    (h1 : 1 ≤ N) (rb : ring_buffer T N) (hr : Reachable rb) (he : rb.empty = true)
    (rb2 : ring_buffer T N) (hr2 : Reachable rb2)
    (raw : ring_buffer T N) (hlen : raw.buffer_.length = BUFSIZE N)
    (cs : List (Call T)) :
    run rb cs = run raw.ctor cs ∧ run rb2.clear cs = run raw.ctor cs := by
  have h := inv_of_reachable hr
  have h2 := inv_clear (inv_of_reachable hr2)
  have h0 := inv_ctor raw hlen
  have hc0 : raw.ctor.contents = [] := contents_of_empty hN _ h0 rfl
  constructor
  · exact run_congr hN h1 cs _ _ h h0 (by rw [contents_of_empty hN rb h he, hc0])
  · exact run_congr hN h1 cs _ _ h2 h0 (by rw [contents_of_empty hN _ h2 rfl, hc0])

/-- C8 on the sequence of the test `fill_refill`, run on the drained buffer,
on the cleared full buffer and on a fresh buffer. -/
theorem emptied_behaves_as_fresh_witness :
    (BUFSIZE 5 < 2 ^ 63 ∧ 1 ≤ 5 ∧ Reachable demo_drained ∧ demo_drained.empty = true ∧
        Reachable demo_full ∧ demo_raw.buffer_.length = BUFSIZE 5) ∧
      run demo_raw.ctor [Call.add 1, Call.add 2, Call.add 3, Call.size, Call.remove,
          Call.remove, Call.remove, Call.empty, Call.remove]
        = [Ret.void, Ret.void, Ret.void, Ret.count 3, Ret.elem 1, Ret.elem 2, Ret.elem 3,
          Ret.flag true, Ret.fault Fault.assert_failed] ∧
      run demo_drained [Call.add 1, Call.add 2, Call.add 3, Call.size, Call.remove,
          Call.remove, Call.remove, Call.empty, Call.remove]
        = run demo_raw.ctor [Call.add 1, Call.add 2, Call.add 3, Call.size, Call.remove,
          Call.remove, Call.remove, Call.empty, Call.remove] ∧
      run demo_full.clear [Call.add 1, Call.add 2, Call.add 3, Call.size, Call.remove,
          Call.remove, Call.remove, Call.empty, Call.remove]
        = run demo_raw.ctor [Call.add 1, Call.add 2, Call.add 3, Call.size, Call.remove,
          Call.remove, Call.remove, Call.empty, Call.remove] :=
  ⟨⟨by decide, by decide, demo_drained_reachable, rfl, demo_full_reachable, rfl⟩, rfl,
    emptied_behaves_as_fresh (by decide) (by decide) demo_drained demo_drained_reachable
      rfl demo_full demo_full_reachable demo_raw rfl _⟩

/-! ## The observers -/

/-- C9: for every capacity `N` (in particular `N ≥ 1`) and every element type,
a freshly constructed buffer, whatever its memory held before, has
`empty() == true`, `size() == 0` and `capacity() == N`. -/
theorem fresh_is_empty {T : Type} {N : Nat} (hN : BUFSIZE N < 2 ^ 63)
    (raw : ring_buffer T N) :
    raw.ctor.empty = true ∧ raw.ctor.size = 0 ∧ raw.ctor.capacity = N :=
  ⟨rfl, (size_eq_zero_iff hN (Nat.succ_pos N) (Nat.succ_pos N)).2 rfl, rfl⟩

/-- C9 at capacity 5, on memory that held arbitrary values. -/
theorem fresh_is_empty_witness :
    BUFSIZE 5 < 2 ^ 63 ∧ demo_raw.ctor.empty = true ∧ demo_raw.ctor.size = 0 ∧
      demo_raw.ctor.capacity = 5 :=
  ⟨by decide, fresh_is_empty (by decide) demo_raw⟩

/-- C10: for every capacity `N` and every state with `head_` and `tail_` in
`[0, N]` (hence every reachable state): `empty()` is true if and only if
`size()` is 0, if and only if `head_ == tail_`; and `size()` is the integer
`(head_ - tail_ + (N + 1)) mod (N + 1)`. -/
theorem empty_iff_size_zero {T : Type} {N : Nat} (hN : BUFSIZE N < 2 ^ 63)
    (rb : ring_buffer T N) (hh : rb.head_ ≤ N) (ht : rb.tail_ ≤ N) :
    (rb.empty = true ↔ rb.size = 0) ∧ (rb.size = 0 ↔ rb.head_ = rb.tail_) ∧
      (rb.size : Int) = ((rb.head_ : Int) - (rb.tail_ : Int) + ((N : Int) + 1))
        % ((N : Int) + 1) := by
  have hh1 : rb.head_ < BUFSIZE N := Nat.lt_succ_of_le hh
  have ht1 : rb.tail_ < BUFSIZE N := Nat.lt_succ_of_le ht
  refine ⟨empty_iff_size hN rb hh1 ht1, size_eq_zero_iff hN hh1 ht1, ?_⟩
  rw [size_eq hN hh1 ht1]
  have hB : BUFSIZE N = N + 1 := rfl
  split
  · next hle =>
    rw [Int.add_emod_self]
    rw [Int.emod_eq_of_lt (by omega) (by omega)]
    omega
  · next hlt =>
    rw [Int.emod_eq_of_lt (by omega) (by omega)]
    omega

/-- C10 at the full buffer of capacity 5, where `head_` is 2 and `tail_` is 3. -/
theorem empty_iff_size_zero_witness :
    (BUFSIZE 5 < 2 ^ 63 ∧ demo_full.head_ ≤ 5 ∧ demo_full.tail_ ≤ 5) ∧
      demo_full.head_ = 2 ∧ demo_full.tail_ = 3 ∧
      (demo_full.size : Int) = ((2 : Int) - 3 + (5 + 1)) % (5 + 1) :=
  ⟨⟨by decide, by decide, by decide⟩, rfl, rfl,
    (empty_iff_size_zero (by decide) demo_full (by decide) (by decide)).2.2⟩

/-! ## `clear`, and `add` followed by `remove` -/

/-- C11: in every state, reachable or not, full, partly filled or empty,
`clear()` sets `head_` and `tail_` to 0 and leaves the storage as it is;
afterwards `empty()` is true and `size()` is 0, `capacity()` is unchanged, and
a second `clear()` changes nothing. -/
theorem clear_resets {T : Type} {N : Nat} (hN : BUFSIZE N < 2 ^ 63)
    (rb : ring_buffer T N) :
    rb.clear.head_ = 0 ∧ rb.clear.tail_ = 0 ∧ rb.clear.buffer_ = rb.buffer_ ∧
      rb.clear.empty = true ∧ rb.clear.size = 0 ∧ rb.clear.capacity = rb.capacity ∧
      rb.clear.clear = rb.clear :=
  ⟨rfl, rfl, rfl, rfl, (size_eq_zero_iff hN (Nat.succ_pos N) (Nat.succ_pos N)).2 rfl,
    rfl, rfl⟩

/-- C11 at the full buffer of capacity 5. -/
theorem clear_resets_witness :
    BUFSIZE 5 < 2 ^ 63 ∧ demo_full.size = 5 ∧
      demo_full.clear = ⟨[7, 8, 3, 4, 5, 6], 0, 0⟩ ∧ demo_full.clear.size = 0 :=
  ⟨by decide, rfl, rfl, (clear_resets (by decide) demo_full).2.2.2.2.1⟩

/-- C12: for every capacity `N ≥ 1`, every reachable empty state (`head_ ==
tail_` at any index) and every item `x`: after `add(x)` the size is 1, the
following `remove()` returns exactly `x`, and it leaves the buffer empty with
size 0. -/
theorem add_then_remove {T : Type} {N : Nat} (hN : BUFSIZE N < 2 ^ 63) (h1 : 1 ≤ N)
    (rb : ring_buffer T N) (hr : Reachable rb) (he : rb.empty = true) (x : T) :
    (rb.add x).size = 1 ∧
      ∃ rb1, (rb.add x).remove = Except.ok (x, rb1) ∧ rb1.empty = true ∧ rb1.size = 0 := by
  have h := inv_of_reachable hr
  have hA := inv_add h x
  have hs0 : rb.size = 0 := (size_eq_zero_iff hN h.head_lt h.tail_lt).2 ((empty_iff rb).1 he)
  have hs1 : (rb.add x).size = 1 := by
    rw [size_add rb hN h x, hs0, if_pos (show 0 < N by omega)]
  have hc0 : rb.contents = [] :=
    List.eq_nil_of_length_eq_zero (by rw [length_contents rb h, hs0])
  have hc1 : (rb.add x).contents = [x] := by
    rw [contents_add rb hN h1 h x, hs0, if_pos (show 0 < N by omega), hc0]
    rfl
  have hne : (rb.add x).empty = false := by
    cases hb : (rb.add x).empty with
    | false => rfl
    | true =>
      have hz := (size_eq_zero_iff hN hA.head_lt hA.tail_lt).2 ((empty_iff _).1 hb)
      omega
  obtain ⟨v, _, hrem⟩ := remove_ok hA hne
  obtain ⟨hcv, hsv⟩ := contents_remove hN hA hrem
  have h1r := inv_remove hA hrem
  rw [hc1] at hcv
  have hv : x = v := (List.cons.inj hcv).1
  rw [← hv] at hrem
  refine ⟨hs1, _, hrem, ?_, by omega⟩
  exact (empty_iff _).2 ((size_eq_zero_iff hN h1r.head_lt h1r.tail_lt).1 (by omega))

/-- C12 at the drained buffer of capacity 5, whose indices are both 3. -/
theorem add_then_remove_witness :
    (BUFSIZE 5 < 2 ^ 63 ∧ 1 ≤ 5 ∧ Reachable demo_drained ∧ demo_drained.empty = true) ∧
      (demo_drained.add 7).size = 1 ∧
      (demo_drained.add 7).remove = Except.ok (7, ⟨[1, 2, 3, 7, 9, 9], 4, 4⟩) ∧
      ∃ rb1, (demo_drained.add 7).remove = Except.ok (7, rb1) ∧ rb1.empty = true ∧
        rb1.size = 0 :=
  ⟨⟨by decide, by decide, demo_drained_reachable, rfl⟩, rfl, rfl,
    (add_then_remove (by decide) (by decide) demo_drained demo_drained_reachable rfl 7).2⟩

/-- C13: for every capacity `N ≥ 1`, every reachable state, full ones included,
and every item `x`: right after `add(x)`, `empty()` is false and `size()` is at
least 1, and the following `remove()` succeeds. -/
theorem add_makes_nonempty {T : Type} {N : Nat} (hN : BUFSIZE N < 2 ^ 63) (h1 : 1 ≤ N)
    (rb : ring_buffer T N) (hr : Reachable rb) (x : T) :
    (rb.add x).empty = false ∧ 1 ≤ (rb.add x).size ∧
      ∃ v rb1, (rb.add x).remove = Except.ok (v, rb1) := by
  have h := inv_of_reachable hr
  have hA := inv_add h x
  have hlt := size_lt rb
  have hB : BUFSIZE N = N + 1 := rfl
  have hs1 : 1 ≤ (rb.add x).size := by
    rw [size_add rb hN h x]
    split <;> omega
  have hne : (rb.add x).empty = false := by
    cases hb : (rb.add x).empty with
    | false => rfl
    | true =>
      have hz := (size_eq_zero_iff hN hA.head_lt hA.tail_lt).2 ((empty_iff _).1 hb)
      omega
  obtain ⟨v, _, hrem⟩ := remove_ok hA hne
  exact ⟨hne, hs1, v, _, hrem⟩

/-- C13 at the full buffer of capacity 5. -/
theorem add_makes_nonempty_witness :
    (BUFSIZE 5 < 2 ^ 63 ∧ 1 ≤ 5 ∧ Reachable demo_full) ∧
      (demo_full.add 9).empty = false ∧ (demo_full.add 9).size = 5 ∧
      ∃ v rb1, (demo_full.add 9).remove = Except.ok (v, rb1) :=
  ⟨⟨by decide, by decide, demo_full_reachable⟩, rfl, rfl,
    (add_makes_nonempty (by decide) (by decide) demo_full demo_full_reachable 9).2.2⟩

/-! ## Indices and arithmetic -/

/-- A run from a well-formed state never reads outside the storage. -/
theorem run_no_out_of_bounds {T : Type} {N : Nat} (cs : List (Call T)) :
    ∀ rb : ring_buffer T N, Inv rb → Ret.fault Fault.out_of_bounds ∉ run rb cs := by
  induction cs with
  | nil => intro rb _ hf; simp [run] at hf
  | cons c cs ih =>
    intro rb h hf
    cases c with
    | add item =>
      simp only [run, List.mem_cons, reduceCtorEq, false_or] at hf
      exact ih _ (inv_add h item) hf
    | remove =>
      cases he : rb.empty with
      | true =>
        have r1 : rb.remove = Except.error Fault.assert_failed := by simp [remove, he]
        simp [run, r1] at hf
      | false =>
        obtain ⟨v, _, hrem⟩ := remove_ok h he
        simp only [run, hrem, List.mem_cons, reduceCtorEq, false_or] at hf
        exact ih _ (inv_remove h hrem) hf
    | clear =>
      simp only [run, List.mem_cons, reduceCtorEq, false_or] at hf
      exact ih _ (inv_clear h) hf
    | size =>
      simp only [run, List.mem_cons, reduceCtorEq, false_or] at hf
      exact ih _ h hf
    | empty =>
      simp only [run, List.mem_cons, reduceCtorEq, false_or] at hf
      exact ih _ h hf
    | capacity =>
      simp only [run, List.mem_cons, reduceCtorEq, false_or] at hf
      exact ih _ h hf

/-- C14: for every capacity `N ≥ 0`, in every state reached from a fresh buffer
by `add`, `remove` and `clear`, `head_` and `tail_` are indices into the
storage of `N + 1` slots: `0 ≤ head_ ≤ N` and `0 ≤ tail_ ≤ N`. So the write
`buffer_[head_]` in `add` lands in its slot, the read `buffer_[old_tail]` in
`remove` is never outside the storage, and no run from such a state is. -/
theorem indices_in_bounds {T : Type} {N : Nat} (rb : ring_buffer T N)
    (hr : Reachable rb) :
    rb.head_ ≤ N ∧ rb.tail_ ≤ N ∧ rb.buffer_.length = N + 1 ∧
      (∀ item, (rb.add item).buffer_[rb.head_]? = some item) ∧
      rb.remove ≠ Except.error Fault.out_of_bounds ∧
      ∀ cs : List (Call T), Ret.fault Fault.out_of_bounds ∉ run rb cs := by
  have h := inv_of_reachable hr
  have hhl : rb.head_ < rb.buffer_.length := by rw [h.len]; exact h.head_lt
  refine ⟨Nat.le_of_lt_succ h.head_lt, Nat.le_of_lt_succ h.tail_lt, h.len, ?_, ?_,
    fun cs => run_no_out_of_bounds cs rb h⟩
  · intro item
    rw [add_buffer, List.getElem?_set, if_pos rfl, if_pos hhl]
  · intro hf
    cases he : rb.empty with
    | true =>
      have r1 : rb.remove = Except.error Fault.assert_failed := by simp [remove, he]
      rw [r1] at hf
      exact Fault.noConfusion (Except.error.inj hf)
    | false =>
      obtain ⟨v, _, hrem⟩ := remove_ok h he
      rw [hrem] at hf
      exact Except.noConfusion hf

/-- C14 at the full buffer of capacity 5 after one more `add`, where both
indices have wrapped around. -/
theorem indices_in_bounds_witness :
    Reachable (demo_full.add 9) ∧ (demo_full.add 9).head_ = 3 ∧
      (demo_full.add 9).tail_ = 4 ∧ (demo_full.add 9).head_ ≤ 5 ∧
      (demo_full.add 9).tail_ ≤ 5 :=
  ⟨Reachable.add _ 9 demo_full_reachable, rfl, rfl,
    (indices_in_bounds (demo_full.add 9) (Reachable.add _ 9 demo_full_reachable)).1,
    (indices_in_bounds (demo_full.add 9) (Reachable.add _ 9 demo_full_reachable)).2.1⟩

/-- The value of `size()` as an integer remainder. -/
theorem size_int_eq {T : Type} {N : Nat} (hN : BUFSIZE N < 2 ^ 63)
    (rb : ring_buffer T N) (hh : rb.head_ < BUFSIZE N) (ht : rb.tail_ < BUFSIZE N) :
    (rb.size : Int) = ((rb.head_ : Int) - (rb.tail_ : Int) + ((N : Int) + 1))
      % ((N : Int) + 1) := by
  rw [size_eq hN hh ht]
  have hB : BUFSIZE N = N + 1 := rfl
  split
  · next hle =>
    rw [Int.add_emod_self]
    rw [Int.emod_eq_of_lt (by omega) (by omega)]
    omega
  · next hlt =>
    rw [Int.emod_eq_of_lt (by omega) (by omega)]
    omega

/-- C15: for every `N` with `N + 1 < 2 ^ 63` and all `head_`, `tail_` in
`[0, N]`: the difference `head_ - tail_` in 64-bit `size_t` arithmetic wraps to
`2 ^ 64 - (tail_ - head_)` when `head_ < tail_`, and still the whole expression
`(head_ - tail_ + BUFSIZE) % BUFSIZE` equals the integer
`(head_ - tail_ + (N + 1)) mod (N + 1)`, which is `head_ - tail_` when
`head_ ≥ tail_` and `(N + 1) - (tail_ - head_)` otherwise. -/
theorem size_wraps_to_mod {T : Type} {N : Nat} (hN : N + 1 < 2 ^ 63)
    (rb : ring_buffer T N) (hh : rb.head_ ≤ N) (ht : rb.tail_ ≤ N) :
    ((rb.head_ + SIZE_MOD - rb.tail_) % SIZE_MOD =
        if rb.tail_ ≤ rb.head_ then rb.head_ - rb.tail_
        else SIZE_MOD - (rb.tail_ - rb.head_)) ∧
      (rb.size : Int) = ((rb.head_ : Int) - (rb.tail_ : Int) + ((N : Int) + 1))
        % ((N : Int) + 1) ∧
      rb.size = if rb.tail_ ≤ rb.head_ then rb.head_ - rb.tail_
        else (N + 1) - (rb.tail_ - rb.head_) := by
  have hh1 : rb.head_ < BUFSIZE N := Nat.lt_succ_of_le hh
  have ht1 : rb.tail_ < BUFSIZE N := Nat.lt_succ_of_le ht
  refine ⟨?_, size_int_eq hN rb hh1 ht1, ?_⟩
  · unfold SIZE_MOD
    split <;> omega
  · rw [size_eq hN hh1 ht1]
    have hB : BUFSIZE N = N + 1 := rfl
    split <;> omega

/-- C15 at capacity 5 with `head_` 2 and `tail_` 3: the difference wraps to
`2 ^ 64 - 1` and the size is 5. -/
theorem size_wraps_to_mod_witness :
    (5 + 1 < 2 ^ 63 ∧ demo_full.head_ ≤ 5 ∧ demo_full.tail_ ≤ 5) ∧
      demo_full.head_ = 2 ∧ demo_full.tail_ = 3 ∧
      (demo_full.head_ + SIZE_MOD - demo_full.tail_) % SIZE_MOD = 2 ^ 64 - 1 ∧
      demo_full.size = 5 :=
  ⟨⟨by decide, by decide, by decide⟩, rfl, rfl,
    (size_wraps_to_mod (by decide) demo_full (by decide) (by decide)).1.trans rfl,
    (size_wraps_to_mod (by decide) demo_full (by decide) (by decide)).2.2.trans rfl⟩

/-- Advancing an index, written with a plain remainder. -/
theorem succ_mod_eq {N value : Nat} (hv : value < BUFSIZE N) :
    (value + 1) % (N + 1) = if value + 1 = BUFSIZE N then 0 else value + 1 := by
  have hB : BUFSIZE N = N + 1 := rfl
  split
  · next h => rw [h, hB, Nat.mod_self]
  · next h => exact Nat.mod_eq_of_lt (by omega)

/-- C16: for every capacity `N ≥ 1` and all `head_`, `tail_` in `[0, N]`:
`size()` is `N` if and only if `(head_ + 1) mod (N + 1) == tail_`, `size()` is
0 if and only if `head_ == tail_`, the two conditions never hold together, and
`size()` is never `N + 1`. -/
theorem full_and_empty_distinct {T : Type} {N : Nat} (hN : BUFSIZE N < 2 ^ 63)
    (h1 : 1 ≤ N) (rb : ring_buffer T N) (hh : rb.head_ ≤ N) (ht : rb.tail_ ≤ N) :
    (rb.size = N ↔ (rb.head_ + 1) % (N + 1) = rb.tail_) ∧
      (rb.size = 0 ↔ rb.head_ = rb.tail_) ∧
      ¬ ((rb.head_ + 1) % (N + 1) = rb.tail_ ∧ rb.head_ = rb.tail_) ∧
      rb.size ≠ N + 1 := by
  have hh1 : rb.head_ < BUFSIZE N := Nat.lt_succ_of_le hh
  have ht1 : rb.tail_ < BUFSIZE N := Nat.lt_succ_of_le ht
  have hB : BUFSIZE N = N + 1 := rfl
  have hlt := size_lt rb
  refine ⟨?_, size_eq_zero_iff hN hh1 ht1, ?_, by omega⟩
  · rw [size_eq hN hh1 ht1, succ_mod_eq hh1]
    split_ifs <;> omega
  · rw [succ_mod_eq hh1]
    split_ifs <;> omega

/-- C16 at the full buffer of capacity 5: `head_` 2, `tail_` 3, size 5. -/
theorem full_and_empty_distinct_witness :
    (BUFSIZE 5 < 2 ^ 63 ∧ 1 ≤ 5 ∧ demo_full.head_ ≤ 5 ∧ demo_full.tail_ ≤ 5) ∧
      (demo_full.head_ + 1) % (5 + 1) = demo_full.tail_ ∧ demo_full.size = 5 :=
  ⟨⟨by decide, by decide, by decide, by decide⟩, rfl,
    (full_and_empty_distinct (by decide) (by decide) demo_full (by decide)
      (by decide)).1.2 rfl⟩

/-! ## The drain loop -/

/-- With more fuel than `size()`, the drain loop ends: it removes the logical
contents, oldest first, and exits with an empty buffer. -/
theorem drainLoop_spec {T : Type} {N : Nat} (hN : BUFSIZE N < 2 ^ 63) (fuel : Nat) :
    ∀ rb : ring_buffer T N, Inv rb → rb.size < fuel →
      ∃ rb1, drainLoop fuel rb = some (Except.ok (rb.contents, rb1)) ∧
        rb1.empty = true ∧ rb1.size = 0 := by
  induction fuel with
  | zero => intro rb _ hf; exact absurd hf (Nat.not_lt_zero _)
  | succ fuel ih =>
    intro rb h hf
    cases he : rb.empty with
    | true =>
      refine ⟨rb, ?_, he, (empty_iff_size hN rb h.head_lt h.tail_lt).1 he⟩
      rw [contents_of_empty hN rb h he]
      simp [drainLoop, he]
    | false =>
      obtain ⟨v, _, hrem⟩ := remove_ok h he
      obtain ⟨hc, hs⟩ := contents_remove hN h hrem
      obtain ⟨rb2, h2, hemp, hz⟩ := ih _ (inv_remove h hrem) (by omega)
      refine ⟨rb2, ?_, hemp, hz⟩
      simp only [drainLoop, he, hrem, h2, hc, Bool.false_eq_true, if_false]

/-- C17: from every reachable state the loop `while (!rb.empty()) rb.remove();`
terminates: given more fuel than `size()` it ends, every `remove()` in it
succeeds, the removed elements are the logical contents oldest first, so there
are exactly `size()` iterations, and on exit `size()` is 0. Each successful
`remove()` makes `size()` strictly smaller. -/
theorem drain_loop_terminates {T : Type} {N : Nat} (hN : BUFSIZE N < 2 ^ 63)
    (rb : ring_buffer T N) (hr : Reachable rb) (fuel : Nat) (hf : rb.size < fuel) :
    (∃ rb1, drainLoop fuel rb = some (Except.ok (rb.contents, rb1)) ∧
        rb1.empty = true ∧ rb1.size = 0) ∧
      rb.contents.length = rb.size ∧
      ∀ v rb2, rb.remove = Except.ok (v, rb2) → rb2.size < rb.size := by
  have h := inv_of_reachable hr
  refine ⟨drainLoop_spec hN fuel rb h hf, length_contents rb h, ?_⟩
  intro v rb2 hrem
  have hs := (contents_remove hN h hrem).2
  omega

/-- C17 on the buffer of capacity 5 holding 1, 2, 3: the loop ends after three
iterations in the drained state. -/
theorem drain_loop_terminates_witness :
    (BUFSIZE 5 < 2 ^ 63 ∧ Reachable demo_three ∧ demo_three.size < 4) ∧
      demo_three.size = 3 ∧
      drainLoop 4 demo_three = some (Except.ok ([1, 2, 3], demo_drained)) ∧
      ∃ rb1, drainLoop 4 demo_three = some (Except.ok (demo_three.contents, rb1)) ∧
        rb1.empty = true ∧ rb1.size = 0 :=
  ⟨⟨by decide, demo_three_reachable, by decide⟩, rfl, rfl,
    (drain_loop_terminates (by decide) demo_three demo_three_reachable 4 (by decide)).1⟩

/-! ## The copy of the class in `ring_buffer.cpp` -/

theorem testing_size_eq {T : Type} {N : Nat} (hN : BUFSIZE N < 2 ^ 63)
    (rb : ring_buffer T N) (hh : rb.head_ < BUFSIZE N) (ht : rb.tail_ < BUFSIZE N) :
    testing.size rb = rb.size := by
  rw [size_eq hN hh ht]
  unfold testing.size SIZE_MOD
  have hB : BUFSIZE N = N + 1 := rfl
  split_ifs <;> omega

theorem testing_run_eq {T : Type} {N : Nat} (hN : BUFSIZE N < 2 ^ 63)
    (cs : List (Call T)) :
    ∀ rb : ring_buffer T N, rb.head_ < BUFSIZE N → rb.tail_ < BUFSIZE N →
      testing.run rb cs = run rb cs := by
  induction cs with
  | nil => intro rb _ _; rfl
  | cons c cs ih =>
    intro rb hh ht
    cases c with
    | add item =>
      have hh1 : (rb.add item).head_ < BUFSIZE N := by
        rw [add_head]; exact advance_lt _ _
      have ht1 : (rb.add item).tail_ < BUFSIZE N := by
        rw [add_tail]
        split
        · exact advance_lt _ _
        · exact ht
      simp only [run, testing.run]
      rw [ih _ hh1 ht1]
    | remove =>
      cases hrem : rb.remove with
      | error f => simp only [run, testing.run, hrem]
      | ok p =>
        obtain ⟨v, rb1⟩ := p
        obtain ⟨_, _, hst⟩ := remove_state hrem
        have hh1 : rb1.head_ < BUFSIZE N := by rw [hst]; exact hh
        have ht1 : rb1.tail_ < BUFSIZE N := by rw [hst]; exact advance_lt _ _
        simp only [run, testing.run, hrem]
        rw [ih _ hh1 ht1]
    | clear =>
      simp only [run, testing.run]
      rw [ih _ (Nat.succ_pos N) (Nat.succ_pos N)]
    | size =>
      simp only [run, testing.run]
      rw [testing_size_eq hN rb hh ht, ih _ hh ht]
    | empty =>
      simp only [run, testing.run]
      rw [ih _ hh ht]
    | capacity =>
      simp only [run, testing.run]
      rw [ih _ hh ht]

/-- C18: for every capacity `N` and all `head_`, `tail_` in `[0, N]`, the
conditional `size()` of `ring_buffer.cpp`,
`head_ >= tail_ ? head_ - tail_ : BUFSIZE - (tail_ - head_)`, returns the same
value as the modular `size()` of `ring_buffer.h`; and as all other members are
the same, every sequence of calls returns the same values with either class. -/
theorem size_implementations_agree {T : Type} {N : Nat} (hN : BUFSIZE N < 2 ^ 63)
    (rb : ring_buffer T N) (hh : rb.head_ ≤ N) (ht : rb.tail_ ≤ N)
    (cs : List (Call T)) :
    testing.size rb = rb.size ∧ testing.run rb cs = run rb cs :=
  ⟨testing_size_eq hN rb (Nat.lt_succ_of_le hh) (Nat.lt_succ_of_le ht),
    testing_run_eq hN cs rb (Nat.lt_succ_of_le hh) (Nat.lt_succ_of_le ht)⟩

/-- C18 at the full buffer of capacity 5, where `head_ < tail_`. -/
theorem size_implementations_agree_witness :
    (BUFSIZE 5 < 2 ^ 63 ∧ demo_full.head_ ≤ 5 ∧ demo_full.tail_ ≤ 5) ∧
      demo_full.size = 5 ∧ testing.size demo_full = 5 ∧
      testing.run demo_full [Call.size, Call.add 9, Call.size, Call.remove, Call.size]
        = [Ret.count 5, Ret.void, Ret.count 5, Ret.elem 5, Ret.count 4] :=
  ⟨⟨by decide, by decide, by decide⟩, rfl,
    (size_implementations_agree (by decide) demo_full (by decide) (by decide) []).1.trans
      rfl,
    rfl⟩

/-! ## Frame conditions -/

/-- The index `head_` catches up with `tail_` in `add` exactly when the buffer
holds `N` elements. -/
theorem advance_head_eq_tail_iff {T : Type} {N : Nat} (hN : BUFSIZE N < 2 ^ 63)
    (rb : ring_buffer T N) (hh : rb.head_ < BUFSIZE N) (ht : rb.tail_ < BUFSIZE N) :
    advance N rb.head_ = rb.tail_ ↔ rb.size = N := by
  rw [advance_eq hN hh, size_eq hN hh ht]
  have hB : BUFSIZE N = N + 1 := rfl
  split_ifs <;> omega

theorem advance_eq_mod {N value : Nat} (hN : BUFSIZE N < 2 ^ 63)
    (hv : value < BUFSIZE N) : advance N value = (value + 1) % (N + 1) := by
  rw [advance_eq hN hv, succ_mod_eq hv]

/-- C19: in every reachable state: a successful `remove()` changes only
`tail_`, which advances by one modulo `N + 1`, and leaves `head_` and every
slot as they were; `add(x)` writes `x` to the slot at the old `head_` and
leaves every other slot as it was, advances `head_` by one modulo `N + 1`, and
leaves `tail_` as it was unless the buffer held `N` elements, in which case
`tail_` advances by one modulo `N + 1`; `clear()` leaves every slot as it
was. -/
theorem frame_conditions {T : Type} {N : Nat} (hN : BUFSIZE N < 2 ^ 63)
    (rb : ring_buffer T N) (hr : Reachable rb) (x : T) :
    (∀ v rb1, rb.remove = Except.ok (v, rb1) →
        rb1.head_ = rb.head_ ∧ rb1.buffer_ = rb.buffer_ ∧
          rb1.tail_ = (rb.tail_ + 1) % (N + 1)) ∧
      (rb.add x).buffer_[rb.head_]? = some x ∧
      (∀ j, j ≠ rb.head_ → (rb.add x).buffer_[j]? = rb.buffer_[j]?) ∧
      (rb.add x).buffer_.length = rb.buffer_.length ∧
      (rb.add x).head_ = (rb.head_ + 1) % (N + 1) ∧
      (rb.add x).tail_ = (if rb.size = N then (rb.tail_ + 1) % (N + 1) else rb.tail_) ∧
      rb.clear.buffer_ = rb.buffer_ := by
  have h := inv_of_reachable hr
  have hhl : rb.head_ < rb.buffer_.length := by rw [h.len]; exact h.head_lt
  have hfull := advance_head_eq_tail_iff hN rb h.head_lt h.tail_lt
  refine ⟨?_, ?_, ?_, ?_, ?_, ?_, rfl⟩
  · intro v rb1 hrem
    obtain ⟨_, _, hst⟩ := remove_state hrem
    rw [hst]
    exact ⟨rfl, rfl, advance_eq_mod hN h.tail_lt⟩
  · rw [add_buffer, List.getElem?_set, if_pos rfl, if_pos hhl]
  · intro j hj
    rw [add_buffer, List.getElem?_set, if_neg (fun e => hj e.symm)]
  · rw [add_buffer, List.length_set]
  · rw [add_head, advance_eq_mod hN h.head_lt]
  · rw [add_tail]
    by_cases hs : rb.size = N
    · rw [if_pos hs, if_pos (hfull.2 hs), advance_eq_mod hN h.tail_lt]
    · rw [if_neg hs, if_neg (fun e => hs (hfull.1 e))]

/-- C19 at the full buffer of capacity 5: `add(9)` writes slot 2 and moves both
indices; at the buffer holding 1, 2, 3 it leaves `tail_` alone. -/
theorem frame_conditions_witness :
    (BUFSIZE 5 < 2 ^ 63 ∧ Reachable demo_full) ∧
      demo_full = ⟨[7, 8, 3, 4, 5, 6], 2, 3⟩ ∧
      demo_full.add 9 = ⟨[7, 8, 9, 4, 5, 6], 3, 4⟩ ∧
      demo_three.add 4 = ⟨[1, 2, 3, 4, 9, 9], 4, 0⟩ ∧
      (demo_full.add 9).head_ = (demo_full.head_ + 1) % (5 + 1) ∧
      (demo_full.add 9).buffer_[demo_full.head_]? = some 9 :=
  ⟨⟨by decide, demo_full_reachable⟩, rfl, rfl, rfl,
    (frame_conditions (by decide) demo_full demo_full_reachable 9).2.2.2.2.1,
    (frame_conditions (by decide) demo_full demo_full_reachable 9).2.1⟩

/-! ## Capacity zero -/

/-- C20: with capacity `N = 0` (one slot), in every reachable state `head_` and
`tail_` are 0; `add(x)` leaves the buffer empty, with `empty() == true` and
`size() == 0 == capacity()` and no contents, so the item is dropped at once;
and `remove()` fails its assertion, before and after the `add`. -/
theorem capacity_zero_drops {T : Type} (rb : ring_buffer T 0) (hr : Reachable rb)
    (x : T) :
    rb.head_ = 0 ∧ rb.tail_ = 0 ∧ (rb.add x).head_ = 0 ∧ (rb.add x).tail_ = 0 ∧
      (rb.add x).empty = true ∧ (rb.add x).size = 0 ∧ (rb.add x).capacity = 0 ∧
      (rb.add x).contents = [] ∧
      rb.remove = Except.error Fault.assert_failed ∧
      (rb.add x).remove = Except.error Fault.assert_failed := by
  have hN : BUFSIZE 0 < 2 ^ 63 := by decide
  have hB : BUFSIZE 0 = 1 := rfl
  have h := inv_of_reachable hr
  have hA := inv_add h x
  have hh := h.head_lt
  have ht := h.tail_lt
  have hh1 := hA.head_lt
  have ht1 := hA.tail_lt
  have e0 : rb.empty = true := (empty_iff rb).2 (by omega)
  have e1 : (rb.add x).empty = true := (empty_iff _).2 (by omega)
  refine ⟨by omega, by omega, by omega, by omega, e1,
    (empty_iff_size hN _ hh1 ht1).1 e1, rfl, contents_of_empty hN _ hA e1, ?_, ?_⟩
  · simp [remove, e0]
  · simp [remove, e1]

/-- C20 on a fresh buffer of capacity 0: the added item 4 is written to the
only slot and is not part of the contents. -/
theorem capacity_zero_drops_witness :
    Reachable demo_raw0.ctor ∧ demo_raw0.ctor.add 4 = ⟨[4], 0, 0⟩ ∧
      (demo_raw0.ctor.add 4).size = 0 ∧ (demo_raw0.ctor.add 4).contents = [] ∧
      (demo_raw0.ctor.add 4).remove = Except.error Fault.assert_failed :=
  ⟨Reachable.fresh demo_raw0 rfl, rfl,
    (capacity_zero_drops demo_raw0.ctor (Reachable.fresh demo_raw0 rfl) 4).2.2.2.2.2.1,
    (capacity_zero_drops demo_raw0.ctor (Reachable.fresh demo_raw0 rfl) 4).2.2.2.2.2.2.2.1,
    (capacity_zero_drops demo_raw0.ctor (Reachable.fresh demo_raw0 rfl)
      4).2.2.2.2.2.2.2.2.2⟩

end RingBuffer
